import Mathlib

/-!
Shallow embedding of the aggregation-and-digest pipeline implemented by
`yt_news.py` and `yt_minutes.py`.

Text handled by the heuristics is modelled as `List Char` (Python strings,
one `Char` per code point).  Identifiers (channel ids, playlist ids, video
ids) are modelled as `String`.  External collaborators (HTTP, datetime
library, the unspecified iteration order of a Python `set`) are modelled as
fields of an explicit environment.
-/

/-- Python string comparison `a <= b`: lexicographic on code points. -/
def lexLe : List Char → List Char → Bool
  | [], _ => true
  | _ :: _, [] => false
  | a :: as, b :: bs => if a = b then lexLe as bs else decide (a < b)

/-- One entry of a `playlistItems.list` response: `contentDetails.videoId`
and the optional `contentDetails.videoPublishedAt` (absent key ↦ `none`). -/
structure FeedEntry where
  videoId : String
  videoPublishedAt : Option (List Char)
deriving DecidableEq, Repr

/-- `list_recent_video_ids` (`yt_news.py` 49–63, `yt_minutes.py` 46–59),
applied to the `items` of the playlist response: keep `videoId` of each
entry whose `videoPublishedAt` is truthy (present and non-empty) and
lexically ≥ the cutoff, in listing order (`if pub and pub >= published_after_z`). -/
def list_recent_video_ids (items : List FeedEntry) (published_after_z : List Char) :
    List String :=
  items.filterMap fun it =>
    match it.videoPublishedAt with
    | none => none
    | some pub => if !pub.isEmpty && lexLe published_after_z pub then some it.videoId else none

/-- The retention test actually performed by the code for one entry. -/
def entryKept (published_after_z : List Char) (it : FeedEntry) : Bool :=
  match it.videoPublishedAt with
  | none => false
  | some pub => !pub.isEmpty && lexLe published_after_z pub

/-- What C1 literally asserts the filter does, following the claim's words:
keep every entry that HAS a publish timestamp (present, possibly empty)
with timestamp lexically ≥ cutoff. -/
def listRecentClaimed (items : List FeedEntry) (published_after_z : List Char) :
    List String :=
  items.filterMap fun it =>
    match it.videoPublishedAt with
    | none => none
    | some pub => if lexLe published_after_z pub then some it.videoId else none

theorem list_recent_eq_map_filter (items : List FeedEntry) (c : List Char) :
    list_recent_video_ids items c = (items.filter (entryKept c)).map FeedEntry.videoId := by
  induction items with
  | nil => rfl
  | cons it rest ih =>
    obtain ⟨vid, pub⟩ := it
    cases pub with
    | none => simpa [list_recent_video_ids, List.filterMap_cons, List.filter_cons, entryKept]
        using ih
    | some p =>
      by_cases hk : ¬p = [] ∧ lexLe c p = true
      · simpa [list_recent_video_ids, List.filterMap_cons, List.filter_cons, entryKept, hk]
          using ih
      · simpa [list_recent_video_ids, List.filterMap_cons, List.filter_cons, entryKept, hk]
          using ih

/-- C1 (counterexample): an entry that HAS a publish timestamp (the empty
string) lexically ≥ the cutoff `""`, yet the code excludes it: the code
additionally requires the timestamp to be non-empty (Python truthiness). -/
theorem c1_counterexample :
    list_recent_video_ids [⟨"v", some []⟩] [] = [] ∧
    (FeedEntry.videoPublishedAt ⟨"v", some []⟩).isSome = true ∧
    lexLe [] [] = true ∧
    listRecentClaimed [⟨"v", some []⟩] [] = ["v"] := by
  refine ⟨rfl, rfl, rfl, rfl⟩

/-- C1 (amended): the Recency Filter returns exactly the video identifiers
of entries whose publish timestamp is present, NON-EMPTY, and lexically ≥
the cutoff, in listing order; entries with an absent or empty timestamp, or
a timestamp lexically < the cutoff, are excluded. -/
theorem c1_recency_filter (items : List FeedEntry) (c : List Char) :
    list_recent_video_ids items c = (items.filter (entryKept c)).map FeedEntry.videoId ∧
    (∀ it : FeedEntry, entryKept c it = true ↔
      ∃ pub, it.videoPublishedAt = some pub ∧ pub ≠ [] ∧ lexLe c pub = true) := by
  refine ⟨list_recent_eq_map_filter items c, fun it => ?_⟩
  cases h : it.videoPublishedAt with
  | none => simp [entryKept, h]
  | some pub => simp [entryKept, h, List.isEmpty_iff]

/-- `chunked` (`yt_news.py` 65–71, `yt_minutes.py` 61–67): successive
slices of `size` elements; the generator stops as soon as the slice
`list(islice(it, size))` comes back empty (exhausted input, or `size = 0`). -/
def chunked (size : Nat) (l : List α) : List (List α) :=
  if (l.take size).isEmpty then []
  else l.take size :: chunked size (l.drop size)
termination_by l.length
decreasing_by
  rename_i h
  rw [Bool.not_eq_true, List.isEmpty_eq_false, Ne, List.take_eq_nil_iff, not_or] at h
  simp only [List.length_drop]
  exact Nat.sub_lt (List.length_pos_of_ne_nil h.2) (Nat.pos_of_ne_zero h.1)

/-- `fetch_videos_meta` (`yt_news.py` 73–83, `yt_minutes.py` 69–78): one
`videos.list` request per chunk of at most 50 ids; `resp` maps the ids of
one request to the `items` of its response; the `items` accumulator
extends in request order. -/
def fetch_videos_meta (resp : List String → List β) (video_ids : List String) : List β :=
  (chunked 50 video_ids).foldl (fun items chunk => items ++ resp chunk) []

theorem chunked_length_le (size : Nat) (l : List α) :
    ∀ c ∈ chunked size l, c.length ≤ size := by
  induction l using chunked.induct size with
  | case1 l h => intro c hc; rw [chunked, if_pos h] at hc; cases hc
  | case2 l h ih =>
    intro c hc
    rw [chunked, if_neg h, List.mem_cons] at hc
    rcases hc with hc | hc
    · simp [hc, List.length_take_le]
    · exact ih c hc

theorem chunked_flatten (size : Nat) (l : List α) (hs : size ≠ 0) :
    (chunked size l).flatten = l := by
  induction l using chunked.induct size with
  | case1 l h =>
    rw [List.isEmpty_eq_true, List.take_eq_nil_iff] at h
    rcases h with h | h
    · exact absurd h hs
    · subst h; rw [chunked]; simp
  | case2 l h ih =>
    rw [chunked, if_neg h, List.flatten_cons, ih, List.take_append_drop]

theorem chunked_count (l : List α) :
    (chunked 50 l).length = (l.length + 49) / 50 := by
  induction l using chunked.induct 50 with
  | case1 l h =>
    rw [List.isEmpty_eq_true, List.take_eq_nil_iff] at h
    rcases h with h | h
    · exact absurd h (by decide)
    · subst h; rw [chunked]; simp
  | case2 l h ih =>
    rw [chunked, if_neg h, List.length_cons, ih, List.length_drop]
    rw [Bool.not_eq_true, List.isEmpty_eq_false, Ne, List.take_eq_nil_iff, not_or] at h
    have h2 : 0 < l.length := List.length_pos_of_ne_nil h.2
    omega

theorem foldl_append_eq_flatMap (f : List String → List β) (cs : List (List String)) :
    ∀ acc : List β, cs.foldl (fun items chunk => items ++ f chunk) acc = acc ++ cs.flatMap f := by
  induction cs with
  | nil => intro acc; simp
  | cons c cs ih => intro acc; simp [List.foldl_cons, ih, List.flatMap_cons, List.append_assoc]

/-- C3 (counterexample): on an input LIST that repeats an identifier
(51 copies of "a"), the two batches produced both contain "a", so the
batches are not disjoint, contradicting the claim's unconditional
disjointness over every input list. -/
theorem c3_counterexample :
    chunked 50 (List.replicate 51 "a") = [List.replicate 50 "a", ["a"]] ∧
    "a" ∈ List.replicate 50 "a" ∧ "a" ∈ ["a"] := by
  have h0 : chunked 50 ([] : List String) = [] := by rw [chunked]; simp
  have h1 : chunked 50 (["a"] : List String) = [["a"]] := by rw [chunked]; simp [h0]
  refine ⟨?_, by simp, by simp⟩
  rw [chunked, if_neg (by simp [List.take_replicate]), List.take_replicate, List.drop_replicate]
  norm_num
  exact h1

/-- C3 (amended): for every input list of N identifiers, `fetch_videos_meta`
issues exactly ⌈N/50⌉ metadata requests (one per chunk), each batch holds at
most 50 identifiers, the concatenation of the batches in order equals the
input list (so each identifier is requested exactly once and, PROVIDED the
input identifiers are pairwise distinct — as they are in the program, where
the input is the deduplicated set — the batches are pairwise disjoint), and
an empty input issues zero requests. -/
theorem c3_batching (l : List String) :
    (chunked 50 l).length = (l.length + 49) / 50 ∧
    (∀ c ∈ chunked 50 l, c.length ≤ 50) ∧
    (chunked 50 l).flatten = l ∧
    (l.Nodup → (chunked 50 l).Pairwise List.Disjoint) ∧
    chunked 50 ([] : List String) = [] ∧
    (∀ resp : List String → List FeedEntry,
      fetch_videos_meta resp l = (chunked 50 l).flatMap resp) := by
  refine ⟨chunked_count l, chunked_length_le 50 l, chunked_flatten 50 l (by decide),
    fun hn => ?_, by rw [chunked]; simp, fun resp => ?_⟩
  · have := chunked_flatten 50 l (by decide)
    rw [← this] at hn
    exact (List.nodup_flatten.mp hn).2
  · simpa using foldl_append_eq_flatMap resp (chunked 50 l) []

/-- Witness for `c3_batching`: instantiated at a concrete distinct two-element
list, with the `Nodup` hypothesis of the disjointness conjunct discharged. -/
theorem c3_batching_witness :
    (chunked 50 ["a", "b"]).flatten = ["a", "b"] ∧
    (chunked 50 ["a", "b"]).Pairwise List.Disjoint :=
  ⟨(c3_batching ["a", "b"]).2.2.1, (c3_batching ["a", "b"]).2.2.2.1 (by decide)⟩

/-- Python `str.lower`, modelled on its ASCII case folding (every character
appearing in the keyword table is ASCII; CJK characters are case-less, where
Python's folding and this model agree). -/
def pyLower (s : List Char) : List Char := s.map Char.toLower

/-- `needle` occurs at the start of the haystack. -/
def beginsWith : List Char → List Char → Bool
  | [], _ => true
  | _ :: _, [] => false
  | a :: as, b :: bs => a == b && beginsWith as bs

/-- Python substring containment `needle in hay` (plain containment, no
word boundaries). -/
def containsSub (needle : List Char) : List Char → Bool
  | [] => needle.isEmpty
  | c :: cs => beginsWith needle (c :: cs) || containsSub needle cs

/-- The fixed keyword → tag-label table (`yt_news.py` 85–99,
`yt_minutes.py` 80–85), in dict insertion order. -/
def KEYWORDS : List (List Char × String) :=
  [("multimodal".toList, "マルチモーダル"), ("vision".toList, "画像/動画"),
   ("video".toList, "画像/動画"), ("audio".toList, "音声"),
   ("agent".toList, "エージェント"), ("tool".toList, "ツール実行"),
   ("safety".toList, "安全性"), ("copyright".toList, "著作権"),
   ("regulation".toList, "規制"), ("construction".toList, "建設/施工"),
   ("marketing".toList, "営業/マーケ"), ("open-source".toList, "OSS"),
   ("finance".toList, "金融")]

/-- The scanned text: title, a newline, the description, lower-cased. -/
def tagScanText (title desc : List Char) : List Char :=
  pyLower (title ++ '\n' :: desc)

/-- The comprehension `[v for k, v in KEYWORDS.items() if k in text]`. -/
def matchedTags (title desc : List Char) : List String :=
  KEYWORDS.filterMap fun kv =>
    if containsSub kv.1 (tagScanText title desc) then some kv.2 else none

/-- `make_tags` (`yt_news.py` 101–104, `yt_minutes.py` 87–90):
`return tags[:5] or ["一般トピック"]`. -/
def make_tags (title desc : List Char) : List String :=
  let tags := matchedTags title desc
  if (tags.take 5).isEmpty then ["一般トピック"] else tags.take 5

/-- Python whitespace class `\s` over ASCII. -/
def pyIsSpace (c : Char) : Bool :=
  c = ' ' || c = '\t' || c = '\n' || c = '\r' || c = '\x0b' || c = '\x0c'

/-- Split on every character satisfying `p`, keeping empty pieces
(Python `str.split(sep)` for a one-character separator). -/
def splitP (p : Char → Bool) : List Char → List (List Char)
  | [] => [[]]
  | c :: cs =>
    if p c then [] :: splitP p cs
    else
      match splitP p cs with
      | [] => [[c]]
      | h :: t => (c :: h) :: t

/-- Python `s.split()`: pieces between whitespace runs, empties dropped. -/
def pyWords (s : List Char) : List (List Char) :=
  (splitP pyIsSpace s).filter (fun w => !w.isEmpty)

/-- `trim` (`yt_news.py` 106–108): `s = " ".join(s.split())`, then
`s[:n] + "…" if len(s) > n else s`, with the default `n = 180`. -/
def trim (s : List Char) (n : Nat := 180) : List Char :=
  let s := List.intercalate [' '] (pyWords s)
  if n < s.length then s.take n ++ ['…'] else s

/-- Tags of one item as computed by the news renderer (`yt_news.py`
143–144): `make_tags` receives the TRIMMED description. -/
def newsItemTags (title desc : List Char) : List String :=
  make_tags title (trim desc)

/-- Tags of one item as computed by the minutes renderer
(`yt_minutes.py` 128–129): `make_tags` receives the full description. -/
def minutesItemTags (title desc : List Char) : List String :=
  make_tags title desc

theorem filterMap_ite_eq_map_filter (p : α → Bool) (f : α → β) (l : List α) :
    l.filterMap (fun a => if p a then some (f a) else none) = (l.filter p).map f := by
  induction l with
  | nil => rfl
  | cons a l ih =>
    by_cases h : p a = true
    · simp [List.filterMap_cons, List.filter_cons, h, ih]
    · simp [List.filterMap_cons, List.filter_cons, h, ih]

theorem matchedTags_eq_filter (title desc : List Char) :
    matchedTags title desc =
      (KEYWORDS.filter (fun kv => containsSub kv.1 (tagScanText title desc))).map Prod.snd :=
  filterMap_ite_eq_map_filter _ _ _

theorem mem_matchedTags_mem_values (title desc : List Char) :
    ∀ v ∈ matchedTags title desc, v ∈ KEYWORDS.map Prod.snd := by
  intro v hv
  rw [matchedTags_eq_filter] at hv
  rcases List.mem_map.mp hv with ⟨kv, hkv, hsnd⟩
  exact List.mem_map.mpr ⟨kv, List.mem_of_mem_filter hkv, hsnd⟩

/-- The description used by the C4 counterexample: 180 filler characters
followed by the keyword "finance", which the news pipeline's 180-character
truncation cuts off before tag scanning. -/
def c4desc : List Char := List.replicate 180 'x' ++ "finance".toList

set_option maxRecDepth 10000 in
/-- C4 (counterexample): in the news pipeline (`yt_news.py` 143–144) tags
are scanned over the TRIMMED description, so the keyword "finance" occurring
in the full description (beyond position 180) yields no tag — the sentinel
comes out instead — although scanning the full description (as the claim
asserts, and as the minutes pipeline does) yields the tag "金融". -/
theorem c4_counterexample :
    newsItemTags "t".toList c4desc = ["一般トピック"] ∧
    minutesItemTags "t".toList c4desc = ["金融"] ∧
    containsSub "finance".toList (tagScanText "t".toList c4desc) = true := by
  refine ⟨by decide, by decide, by decide⟩

/-- C4 (amended): the tag list is derived by scanning the lower-cased
concatenation of the title and the description for plain substring
containment of each key of the fixed table, in table iteration order,
subject to the truncate-to-5 rule and the empty-match sentinel; the
description scanned is the FULL description in the minutes pipeline but the
whitespace-collapsed, 180-character-truncated description in the news
pipeline, so there a keyword occurring only beyond the truncation point
yields no tag. -/
theorem c4_tag_derivation (title desc : List Char) :
    matchedTags title desc =
      (KEYWORDS.filter (fun kv => containsSub kv.1 (tagScanText title desc))).map Prod.snd ∧
    make_tags title desc =
      (if (matchedTags title desc).isEmpty then ["一般トピック"]
       else (matchedTags title desc).take 5) ∧
    minutesItemTags title desc = make_tags title desc ∧
    newsItemTags title desc = make_tags title (trim desc) ∧
    (∀ k v, (k, v) ∈ KEYWORDS → containsSub k (tagScanText title desc) = true →
      v ∈ matchedTags title desc) := by
  refine ⟨matchedTags_eq_filter title desc, ?_, rfl, rfl, ?_⟩
  · unfold make_tags
    cases h : matchedTags title desc with
    | nil => simp
    | cons t ts => simp
  · intro k v hkv hc
    rw [matchedTags_eq_filter]
    exact List.mem_map.mpr ⟨(k, v), List.mem_filter.mpr ⟨hkv, hc⟩, rfl⟩

/-- Witness for `c4_tag_derivation`: at a concrete item whose description
contains the keyword "agent", the keyword's label is among the matches. -/
theorem c4_tag_derivation_witness :
    ("agent".toList, ("エージェント" : String)) ∈ KEYWORDS ∧
    containsSub "agent".toList (tagScanText "AI agent demo".toList [] ) = true ∧
    ("エージェント" : String) ∈ matchedTags "AI agent demo".toList [] := by
  refine ⟨by decide, by decide, ?_⟩
  exact (c4_tag_derivation "AI agent demo".toList []).2.2.2.2
    "agent".toList "エージェント" (by decide) (by decide)

/-- C6: `make_tags` returns between 1 and 5 tags, and it returns exactly
the single sentinel list iff no keyword of the table matches the scanned
text. -/
theorem c6_tag_bounds (title desc : List Char) :
    1 ≤ (make_tags title desc).length ∧ (make_tags title desc).length ≤ 5 ∧
    (make_tags title desc = ["一般トピック"] ↔ matchedTags title desc = []) ∧
    (matchedTags title desc = [] ↔
      ∀ kv ∈ KEYWORDS, containsSub kv.1 (tagScanText title desc) = false) := by
  have hvals : ("一般トピック" : String) ∉ KEYWORDS.map Prod.snd := by decide
  have hsent : ∀ v ∈ matchedTags title desc, v ≠ "一般トピック" := by
    intro v hv he
    exact hvals (he ▸ mem_matchedTags_mem_values title desc v hv)
  refine ⟨?_, ?_, ?_, ?_⟩
  · unfold make_tags
    cases h : matchedTags title desc with
    | nil => simp
    | cons t ts => simp [List.take_succ_cons]
  · unfold make_tags
    cases h : matchedTags title desc with
    | nil => simp
    | cons t ts =>
      simp only [List.take_succ_cons, List.isEmpty_cons, Bool.false_eq_true, if_false,
        List.length_cons, List.length_take]
      omega
  · unfold make_tags
    cases h : matchedTags title desc with
    | nil => simp
    | cons t ts =>
      have ht : t ∈ matchedTags title desc := by rw [h]; exact List.mem_cons_self t ts
      simp only [List.take_succ_cons, List.isEmpty_cons, Bool.false_eq_true, if_false]
      constructor
      · intro he
        have h1 : t = "一般トピック" := by
          have := congrArg List.head? he
          simpa using this
        exact absurd h1 (hsent _ ht)
      · intro he
        exact absurd he (List.cons_ne_nil t ts)
  · rw [matchedTags_eq_filter]
    rw [List.map_eq_nil_iff, List.filter_eq_nil_iff]
    constructor
    · intro h kv hkv
      simpa using h kv hkv
    · intro h kv hkv
      simp [h kv hkv]

/-- Python `str.strip()`: whitespace removed from both ends. -/
def pyStrip (s : List Char) : List Char :=
  ((s.dropWhile pyIsSpace).reverse.dropWhile pyIsSpace).reverse

/-- `re.sub(r"\s+", " ", s)`: one left-to-right pass replacing every maximal
whitespace run by a single space; the flag records whether the scanner is
inside a run whose space has already been emitted. -/
def collapseAux : Bool → List Char → List Char
  | _, [] => []
  | inRun, c :: cs =>
    if pyIsSpace c then
      if inRun then collapseAux true cs else ' ' :: collapseAux true cs
    else c :: collapseAux false cs

/-- `normalize_text` (`yt_minutes.py` 92–95): strip, then collapse
whitespace runs to single spaces. -/
def normalize_text (s : List Char) : List Char := collapseAux false (pyStrip s)

/-- The bullet-marker characters of `line.strip(" ・-•\t")`. -/
def bulletMarkers : List Char := [' ', '・', '-', '•', '\t']

/-- Python `str.strip(chars)`: characters of the set removed from both ends. -/
def stripChars (set : List Char) (l : List Char) : List Char :=
  ((l.dropWhile (set.contains ·)).reverse.dropWhile (set.contains ·)).reverse

/-- The sentence-delimiter class `[。.!?・•\-]` of the bullet splitter. -/
def sentenceDelim (c : Char) : Bool :=
  c = '。' || c = '.' || c = '!' || c = '?' || c = '・' || c = '•' || c = '-'

/-- `re.split(r"[...]+", line)`: pieces between maximal delimiter runs,
keeping empty pieces at the borders; the flag records whether the scanner
is inside a delimiter run that has already opened a new piece. -/
def splitRunsAux (p : Char → Bool) : Bool → List Char → List (List Char)
  | _, [] => [[]]
  | prevDelim, c :: cs =>
    if p c then
      if prevDelim then splitRunsAux p true cs
      else [] :: splitRunsAux p true cs
    else
      match splitRunsAux p false cs with
      | [] => [[c]]
      | h :: t => (c :: h) :: t

/-- The scan of `bullets_from_description` before the final `parts[:3]`
slice: lines of the CR-free description, stripped of bullet markers, split
on delimiter runs, each fragment normalized, fragments shorter than 8
characters dropped, in original scan order. -/
def qualifyingFragments (desc : List Char) : List (List Char) :=
  (splitP (fun c => c = '\n') (desc.filter fun c => !(c = '\r'))).flatMap fun line =>
    let line2 := stripChars bulletMarkers line
    if line2.isEmpty then []
    else
      (splitRunsAux sentenceDelim false line2).filterMap fun f =>
        let f2 := normalize_text f
        if 8 ≤ f2.length then some f2 else none

/-- `bullets_from_description` (`yt_minutes.py` 97–117). -/
def bullets_from_description (desc : List Char) (max_items : Nat := 3) :
    List (List Char) :=
  if desc.isEmpty then [] else (qualifyingFragments desc).take max_items

/-- Normal form of `normalize_text` output: no leading or trailing
whitespace, no two adjacent whitespace characters, every whitespace
character is a plain space. -/
def noWSHead (l : List Char) : Prop := ∀ c, l.head? = some c → pyIsSpace c = false

def noWSLast (l : List Char) : Prop := ∀ c, l.getLast? = some c → pyIsSpace c = false

def noDoubleWS (l : List Char) : Prop :=
  l.Chain' fun a b => ¬(pyIsSpace a = true ∧ pyIsSpace b = true)

def wsOnlySpace (l : List Char) : Prop := ∀ c ∈ l, pyIsSpace c = true → c = ' '

theorem getLast?_cons_ne (a : α) (l : List α) (h : l ≠ []) :
    (a :: l).getLast? = l.getLast? := by
  cases l with
  | nil => exact absurd rfl h
  | cons b m => rw [List.getLast?_cons_cons]

theorem collapseAux_true_head (l : List Char) :
    ∀ c, (collapseAux true l).head? = some c → pyIsSpace c = false := by
  induction l with
  | nil => intro c hc; cases hc
  | cons a l ih =>
    intro c hc
    by_cases ha : pyIsSpace a = true
    · rw [collapseAux, if_pos ha, if_pos rfl] at hc
      exact ih c hc
    · rw [collapseAux, if_neg ha] at hc
      cases hc
      exact Bool.not_eq_true _ ▸ ha

theorem collapseAux_wsOnlySpace (flag : Bool) (l : List Char) :
    wsOnlySpace (collapseAux flag l) := by
  induction l generalizing flag with
  | nil => intro c hc; cases hc
  | cons a l ih =>
    intro c hc hws
    by_cases ha : pyIsSpace a = true
    · rw [collapseAux, if_pos ha] at hc
      cases flag with
      | true => rw [if_pos rfl] at hc; exact ih true c hc hws
      | false =>
        rw [if_neg (by simp)] at hc
        rcases List.mem_cons.mp hc with h | h
        · exact h
        · exact ih true c h hws
    · rw [collapseAux, if_neg ha] at hc
      rcases List.mem_cons.mp hc with h | h
      · exact absurd (h ▸ hws) ha
      · exact ih false c h hws

theorem collapseAux_noDouble (flag : Bool) (l : List Char) :
    noDoubleWS (collapseAux flag l) := by
  induction l generalizing flag with
  | nil => exact List.chain'_nil
  | cons a l ih =>
    by_cases ha : pyIsSpace a = true
    · rw [collapseAux, if_pos ha]
      cases flag with
      | true => rw [if_pos rfl]; exact ih true
      | false =>
        rw [if_neg (by simp)]
        refine List.chain'_cons'.mpr ⟨fun b hb => ?_, ih true⟩
        intro hcon
        have := collapseAux_true_head l b hb
        rw [hcon.2] at this
        cases this
    · rw [collapseAux, if_neg ha]
      refine List.chain'_cons'.mpr ⟨fun b hb => ?_, ih false⟩
      intro hcon
      exact ha hcon.1

theorem collapseAux_getLast (l : List Char) :
    ∀ flag c, l.getLast? = some c → pyIsSpace c = false →
    ∃ d, (collapseAux flag l).getLast? = some d ∧ pyIsSpace d = false := by
  induction l with
  | nil => intro flag c hc; cases hc
  | cons a l ih =>
    intro flag c hc hcw
    cases l with
    | nil =>
      rw [List.getLast?_singleton] at hc
      cases hc
      have ha : pyIsSpace a = false := hcw
      refine ⟨a, ?_, ha⟩
      rw [collapseAux, if_neg (by simp [ha]), collapseAux]
      simp
    | cons b m =>
      rw [List.getLast?_cons_cons] at hc
      by_cases ha : pyIsSpace a = true
      · rw [collapseAux, if_pos ha]
        cases flag with
        | true => rw [if_pos rfl]; exact ih true c hc hcw
        | false =>
          rw [if_neg (by simp)]
          obtain ⟨d, hd, hdw⟩ := ih true c hc hcw
          refine ⟨d, ?_, hdw⟩
          have hne : collapseAux true (b :: m) ≠ [] := by
            intro h0; rw [h0] at hd; cases hd
          rw [getLast?_cons_ne _ _ hne]
          exact hd
      · rw [collapseAux, if_neg ha]
        obtain ⟨d, hd, hdw⟩ := ih false c hc hcw
        refine ⟨d, ?_, hdw⟩
        have hne : collapseAux false (b :: m) ≠ [] := by
          intro h0; rw [h0] at hd; cases hd
        rw [getLast?_cons_ne _ _ hne]
        exact hd

theorem collapseAux_head_false (l : List Char) (c : Char)
    (hc : l.head? = some c) (hw : pyIsSpace c = false) :
    (collapseAux false l).head? = some c := by
  cases l with
  | nil => cases hc
  | cons a m =>
    cases hc
    rw [collapseAux, if_neg (by simp [hw])]
    rfl

theorem dropWhile_head_false (p : Char → Bool) (l : List Char) :
    ∀ c, (l.dropWhile p).head? = some c → p c = false := by
  induction l with
  | nil => intro c hc; cases hc
  | cons a m ih =>
    intro c hc
    by_cases ha : p a = true
    · rw [List.dropWhile_cons, if_pos ha] at hc
      exact ih c hc
    · rw [List.dropWhile_cons, if_neg ha] at hc
      cases hc
      exact Bool.not_eq_true _ ▸ ha

theorem exists_append_dropWhile (p : Char → Bool) (l : List Char) :
    ∃ t, l = t ++ l.dropWhile p := by
  induction l with
  | nil => exact ⟨[], rfl⟩
  | cons a m ih =>
    by_cases ha : p a = true
    · obtain ⟨t, ht⟩ := ih
      exact ⟨a :: t, by rw [List.dropWhile_cons, if_pos ha, List.cons_append, ← ht]⟩
    · exact ⟨[], by rw [List.dropWhile_cons, if_neg ha, List.nil_append]⟩

theorem pyStrip_head (l : List Char) : noWSHead (pyStrip l) := by
  intro c hc
  unfold pyStrip at hc
  set m := l.dropWhile pyIsSpace with hm
  set r := m.reverse.dropWhile pyIsSpace with hr
  obtain ⟨t, ht⟩ := exists_append_dropWhile pyIsSpace m.reverse
  have hm2 : m = r.reverse ++ t.reverse := by
    rw [hr, ← List.reverse_append, ← ht, List.reverse_reverse]
  cases hrv : r.reverse with
  | nil => rw [hrv] at hc; cases hc
  | cons x xs =>
    rw [hrv] at hc
    cases hc
    apply dropWhile_head_false pyIsSpace l
    rw [← hm, hm2, hrv]
    rfl

theorem pyStrip_last (l : List Char) : noWSLast (pyStrip l) := by
  intro c hc
  unfold pyStrip at hc
  rw [List.getLast?_reverse] at hc
  exact dropWhile_head_false pyIsSpace _ c hc

theorem normalize_text_head (s : List Char) : noWSHead (normalize_text s) := by
  intro c hc
  unfold normalize_text at hc
  cases hstrip : pyStrip s with
  | nil => rw [hstrip] at hc; cases hc
  | cons a m =>
    have ha : pyIsSpace a = false := pyStrip_head s a (by rw [hstrip]; rfl)
    rw [hstrip, collapseAux, if_neg (by simp [ha])] at hc
    cases hc
    exact ha

theorem normalize_text_last (s : List Char) : noWSLast (normalize_text s) := by
  intro c hc
  unfold normalize_text at hc
  cases hlast : (pyStrip s).getLast? with
  | none =>
    have : pyStrip s = [] := by
      cases h : pyStrip s with
      | nil => rfl
      | cons a m => rw [h] at hlast; simp [List.getLast?_concat] at hlast
    rw [this] at hc
    cases hc
  | some d =>
    have hd : pyIsSpace d = false := pyStrip_last s d hlast
    obtain ⟨e, he, hew⟩ := collapseAux_getLast (pyStrip s) false d hlast hd
    rw [he] at hc
    cases hc
    exact hew

theorem normalize_text_wsOnly (s : List Char) : wsOnlySpace (normalize_text s) :=
  collapseAux_wsOnlySpace false (pyStrip s)

theorem normalize_text_noDouble (s : List Char) : noDoubleWS (normalize_text s) :=
  collapseAux_noDouble false (pyStrip s)

theorem dropWhile_eq_self_of_head (p : Char → Bool) (l : List Char)
    (h : ∀ c, l.head? = some c → p c = false) : l.dropWhile p = l := by
  cases l with
  | nil => rfl
  | cons a m =>
    rw [List.dropWhile_cons, if_neg (by simp [h a rfl])]

theorem pyStrip_eq_self (l : List Char) (h1 : noWSHead l) (h2 : noWSLast l) :
    pyStrip l = l := by
  unfold pyStrip
  rw [dropWhile_eq_self_of_head pyIsSpace l h1]
  rw [dropWhile_eq_self_of_head pyIsSpace l.reverse
    (fun c hc => h2 c (by rwa [List.head?_reverse] at hc))]
  exact List.reverse_reverse l

theorem collapseAux_eq_self (l : List Char) (h1 : wsOnlySpace l) (h2 : noDoubleWS l) :
    collapseAux false l = l ∧ (noWSHead l → collapseAux true l = l) := by
  induction l with
  | nil => exact ⟨rfl, fun _ => rfl⟩
  | cons a m ih =>
    have h1m : wsOnlySpace m := fun c hc hw => h1 c (List.mem_cons_of_mem a hc) hw
    have h2' := List.chain'_cons'.mp h2
    obtain ⟨ihf, iht⟩ := ih h1m h2'.2
    by_cases ha : pyIsSpace a = true
    · have haa : a = ' ' := h1 a (List.mem_cons_self a m) ha
      have hmhead : noWSHead m := by
        intro c hc
        by_contra hcon
        rw [Bool.not_eq_false] at hcon
        exact h2'.1 c hc ⟨ha, hcon⟩
      constructor
      · rw [collapseAux, if_pos ha, if_neg (by simp), iht hmhead, haa]
      · intro hh
        exact absurd (hh a rfl) (by simp [ha])
    · have ha' : pyIsSpace a = false := by simpa using ha
      constructor
      · rw [collapseAux, if_neg ha, ihf]
      · intro _
        rw [collapseAux, if_neg ha, ihf]

theorem normalize_text_idem (s : List Char) :
    normalize_text (normalize_text s) = normalize_text s := by
  conv_lhs => rw [normalize_text]
  rw [pyStrip_eq_self _ (normalize_text_head s) (normalize_text_last s)]
  exact (collapseAux_eq_self _ (normalize_text_wsOnly s) (normalize_text_noDouble s)).1

theorem mem_qualifyingFragments (desc b : List Char)
    (hb : b ∈ qualifyingFragments desc) :
    ∃ f, b = normalize_text f ∧ 8 ≤ b.length := by
  unfold qualifyingFragments at hb
  rcases List.mem_flatMap.mp hb with ⟨line, hline, hb2⟩
  simp only at hb2
  by_cases he : (stripChars bulletMarkers line).isEmpty = true
  · rw [if_pos he] at hb2
    cases hb2
  · rw [if_neg he] at hb2
    rcases List.mem_filterMap.mp hb2 with ⟨f, hf, heq⟩
    by_cases hlen : 8 ≤ (normalize_text f).length
    · rw [if_pos hlen] at heq
      cases heq
      exact ⟨f, rfl, hlen⟩
    · rw [if_neg hlen] at heq
      cases heq

/-- C5: bullet extraction returns at most 3 fragments, every returned
fragment has length ≥ 8 (it is already whitespace-normalized), the returned
fragments are exactly the first qualifying fragments of the scan in
original order, the empty description yields zero bullets, and the spec's
scenario-C description yields exactly the one bullet
"Built with RAG and tool use". -/
theorem c5_bullets (desc : List Char) :
    (bullets_from_description desc).length ≤ 3 ∧
    (∀ b ∈ bullets_from_description desc, 8 ≤ b.length) ∧
    bullets_from_description desc =
      (if desc.isEmpty then [] else (qualifyingFragments desc).take 3) ∧
    bullets_from_description [] = [] ∧
    bullets_from_description "Intro.\nBuilt with RAG and tool use.\nShort.\n".toList =
      ["Built with RAG and tool use".toList] := by
  refine ⟨?_, ?_, rfl, rfl, by decide⟩
  · unfold bullets_from_description
    by_cases he : desc.isEmpty = true
    · rw [if_pos he]; simp
    · rw [if_neg he]; exact List.length_take_le 3 _
  · intro b hb
    unfold bullets_from_description at hb
    by_cases he : desc.isEmpty = true
    · rw [if_pos he] at hb; cases hb
    · rw [if_neg he] at hb
      obtain ⟨f, hf, hlen⟩ :=
        mem_qualifyingFragments desc b (List.mem_of_mem_take hb)
      exact hlen

/-- Witness for `c5_bullets`: instantiated at the scenario-C description
with its one qualifying bullet, discharging the membership hypothesis. -/
theorem c5_bullets_witness :
    8 ≤ ("Built with RAG and tool use".toList).length :=
  (c5_bullets "Intro.\nBuilt with RAG and tool use.\nShort.\n".toList).2.1
    "Built with RAG and tool use".toList (by decide)

/-- C10: `normalize_text` is idempotent, and consequently every bullet
emitted by `bullets_from_description` is in normal form: no leading
whitespace, no trailing whitespace, and no two adjacent whitespace
characters. -/
theorem c10_normalize_idem :
    (∀ s : List Char, normalize_text (normalize_text s) = normalize_text s) ∧
    (∀ desc b : List Char, b ∈ bullets_from_description desc →
      noWSHead b ∧ noWSLast b ∧ noDoubleWS b) := by
  refine ⟨normalize_text_idem, ?_⟩
  intro desc b hb
  unfold bullets_from_description at hb
  by_cases he : desc.isEmpty = true
  · rw [if_pos he] at hb; cases hb
  · rw [if_neg he] at hb
    obtain ⟨f, hf, _⟩ := mem_qualifyingFragments desc b (List.mem_of_mem_take hb)
    subst hf
    exact ⟨normalize_text_head f, normalize_text_last f, normalize_text_noDouble f⟩

/-- Witness for `c10_normalize_idem`: the normal-form properties at the
concrete bullet of the scenario-C description. -/
theorem c10_normalize_idem_witness :
    noWSHead "Built with RAG and tool use".toList ∧
    noWSLast "Built with RAG and tool use".toList ∧
    noDoubleWS "Built with RAG and tool use".toList :=
  c10_normalize_idem.2 "Intro.\nBuilt with RAG and tool use.\nShort.\n".toList
    "Built with RAG and tool use".toList (by decide)

/-- One item of a `videos.list` response: the `snippet` fields the
pipelines read. -/
structure Snippet where
  title : List Char
  description : List Char
  publishedAt : List Char
  channelTitle : List Char
deriving DecidableEq, Repr

structure Meta where
  id : String
  snippet : Snippet
deriving DecidableEq, Repr

/-- The sort key `lambda x: x["snippet"]["publishedAt"]`. -/
def metaKey (m : Meta) : List Char := m.snippet.publishedAt

/-- Stable descending insertion: the new element (earlier in the original
list) is placed before the first element whose key is ≤ its own, so it
precedes every equal-key element that came later. -/
def insertDesc (key : α → List Char) (x : α) : List α → List α
  | [] => [x]
  | y :: ys => if lexLe (key y) (key x) then x :: y :: ys else y :: insertDesc key x ys

/-- `metas.sort(key=lambda x: x["snippet"]["publishedAt"], reverse=True)`
(`yt_news.py` 131, `yt_minutes.py` 164): Python's sort is stable, and with
`reverse=True` ties keep their original order; modelled as stable
descending insertion sort. -/
def sortDescKey (key : α → List Char) (l : List α) : List α :=
  l.foldr (insertDesc key) []

/-- The digest presentation order of the fetched items. -/
def digestOrder (metas : List Meta) : List Meta := sortDescKey metaKey metas

theorem lexLe_refl (a : List Char) : lexLe a a = true := by
  induction a with
  | nil => rfl
  | cons c cs ih => rw [lexLe, if_pos rfl]; exact ih

theorem lexLe_total (a b : List Char) : lexLe a b = true ∨ lexLe b a = true := by
  induction a generalizing b with
  | nil => left; rfl
  | cons c cs ih =>
    cases b with
    | nil => right; rfl
    | cons d ds =>
      by_cases h : c = d
      · subst h
        rw [lexLe, if_pos rfl, lexLe, if_pos rfl]
        exact ih ds
      · rcases lt_or_gt_of_ne h with hlt | hgt
        · left; rw [lexLe, if_neg h]; simpa using hlt
        · right; rw [lexLe, if_neg (Ne.symm h)]; simpa using hgt

theorem insertDesc_chain (key : α → List Char) (x : α) (l : List α)
    (h : l.Chain' fun a b => lexLe (key b) (key a) = true) :
    (insertDesc key x l).Chain' fun a b => lexLe (key b) (key a) = true := by
  induction l with
  | nil => simp [insertDesc]
  | cons y ys ih =>
    rw [insertDesc]
    by_cases hc : lexLe (key y) (key x) = true
    · rw [if_pos hc]
      exact List.chain'_cons'.mpr ⟨fun b hb => by cases hb; exact hc, h⟩
    · rw [if_neg hc]
      have h' := List.chain'_cons'.mp h
      refine List.chain'_cons'.mpr ⟨fun b hb => ?_, ih h'.2⟩
      cases ys with
      | nil =>
        rw [insertDesc] at hb
        cases hb
        rcases lexLe_total (key y) (key x) with hx | hx
        · exact absurd hx hc
        · exact hx
      | cons z zs =>
        rw [insertDesc] at hb
        by_cases hz : lexLe (key z) (key x) = true
        · rw [if_pos hz] at hb
          cases hb
          rcases lexLe_total (key y) (key x) with hx | hx
          · exact absurd hx hc
          · exact hx
        · rw [if_neg hz] at hb
          exact h'.1 b (by simpa using hb)

theorem insertDesc_filter_eq (key : α → List Char) (x : α) (v : List Char)
    (hv : key x = v) (l : List α) :
    (insertDesc key x l).filter (fun y => key y == v) =
      x :: l.filter (fun y => key y == v) := by
  induction l with
  | nil => simp [insertDesc, List.filter_cons, hv]
  | cons y ys ih =>
    rw [insertDesc]
    by_cases hc : lexLe (key y) (key x) = true
    · rw [if_pos hc, List.filter_cons, if_pos (by simp [hv])]
    · rw [if_neg hc]
      have hy : ¬ key y = v := by
        intro he
        exact hc (by rw [he, hv]; exact lexLe_refl v)
      rw [List.filter_cons, if_neg (by simp [hy]), ih,
        List.filter_cons, if_neg (by simp [hy])]

theorem insertDesc_filter_ne (key : α → List Char) (x : α) (v : List Char)
    (hv : ¬ key x = v) (l : List α) :
    (insertDesc key x l).filter (fun y => key y == v) =
      l.filter (fun y => key y == v) := by
  induction l with
  | nil => simp [insertDesc, List.filter_cons, hv]
  | cons y ys ih =>
    rw [insertDesc]
    by_cases hc : lexLe (key y) (key x) = true
    · rw [if_pos hc, List.filter_cons, if_neg (by simp [hv])]
    · rw [if_neg hc, List.filter_cons, ih, List.filter_cons]

theorem insertDesc_perm (key : α → List Char) (x : α) (l : List α) :
    (insertDesc key x l).Perm (x :: l) := by
  induction l with
  | nil => exact List.Perm.refl _
  | cons y ys ih =>
    rw [insertDesc]
    by_cases hc : lexLe (key y) (key x) = true
    · rw [if_pos hc]
    · rw [if_neg hc]
      exact (ih.cons y).trans (List.Perm.swap x y ys)

/-- C7: the rendered digest presents items in non-increasing `publishedAt`
order, the sort is a permutation of its input, and it is stable: for every
key value, the items carrying that key appear in exactly their pre-sort
relative order. -/
theorem c7_digest_order (metas : List Meta) :
    ((digestOrder metas).Chain' fun a b => lexLe (metaKey b) (metaKey a) = true) ∧
    (∀ v : List Char, (digestOrder metas).filter (fun m => metaKey m == v) =
      metas.filter (fun m => metaKey m == v)) ∧
    (digestOrder metas).Perm metas := by
  refine ⟨?_, fun v => ?_, ?_⟩
  · unfold digestOrder sortDescKey
    induction metas with
    | nil => exact List.chain'_nil
    | cons m ms ih => exact insertDesc_chain metaKey m _ ih
  · unfold digestOrder sortDescKey
    induction metas with
    | nil => rfl
    | cons m ms ih =>
      rw [List.foldr_cons]
      by_cases hv : metaKey m = v
      · rw [insertDesc_filter_eq metaKey m v hv, ih,
          List.filter_cons, if_pos (by simp [hv])]
      · rw [insertDesc_filter_ne metaKey m v hv, ih,
          List.filter_cons, if_neg (by simp [hv])]
  · unfold digestOrder sortDescKey
    induction metas with
    | nil => exact List.Perm.refl _
    | cons m ms ih =>
      exact (insertDesc_perm metaKey m _).trans (ih.cons m)

/-- The run environment: external collaborators and configuration.
`channels ch` models the `items` of the `channels.list` response for one
channel, each item represented by its
`contentDetails.relatedPlaylists.uploads` value; `playlistItems` and
`videosResp` model the `items` of the feed-listing and metadata responses;
`jstOf` models the datetime library's `to_jst_str`; `setToList` models the
unspecified iteration order of a Python `set` in `list(all_ids)`;
`cutoff` is the precomputed `published_after_z`. -/
structure Env where
  channels : String → List String
  playlistItems : String → List FeedEntry
  videosResp : List String → List Meta
  channelIds : List String
  hoursWindow : Nat
  cutoff : List Char
  nowJstDate : List Char
  nowJstMinute : List Char
  jstOf : List Char → List Char
  setToList : Finset String → List String

/-- `get_uploads_pid` (`yt_news.py` 41–47): `None` when the response has no
items, otherwise `items[0]...uploads`. -/
def get_uploads_pid (env : Env) (channel_id : String) : Option String :=
  (env.channels channel_id).head?

/-- One iteration of the aggregation loop (`yt_news.py` 119–124): a channel
without an uploads playlist is skipped, otherwise its recent ids join the
accumulating set. -/
def sourceStep (env : Env) (s : Finset String) (ch : String) : Finset String :=
  match get_uploads_pid env ch with
  | none => s
  | some upid => s ∪ (list_recent_video_ids (env.playlistItems upid) env.cutoff).toFinset

def collectIds (env : Env) (chans : List String) : Finset String :=
  chans.foldl (sourceStep env) ∅

/-- The deduplicated identifier set `all_ids` of one run. -/
def allIds (env : Env) : Finset String := collectIds env env.channelIds

/-- The bare accumulator pattern `all_ids = set(); all_ids.update(ids)`
applied to a collection of per-source identifier lists. -/
def dedupIds (inputs : List (List String)) : Finset String :=
  inputs.foldl (fun s ids => s ∪ ids.toFinset) ∅

/-- The per-source identifier lists of a run (a skipped source contributes
the empty list). -/
def sourceLists (env : Env) (chans : List String) : List (List String) :=
  chans.map fun ch =>
    match get_uploads_pid env ch with
    | none => []
    | some upid => list_recent_video_ids (env.playlistItems upid) env.cutoff

def natChars (n : Nat) : List Char := (toString n).toList

/-- The "no new items" notice of `yt_minutes.py` 159–160. -/
def minutesNotice (env : Env) : List Char :=
  "📄 AIトレンド社内報：新着なし（".toList ++ env.nowJstMinute ++ " JST, 過去".toList
    ++ natChars env.hoursWindow ++ "h）".toList

/-- The sorted item list fetched and rendered by a non-empty run. -/
def digestItems (env : Env) : List Meta :=
  digestOrder (fetch_videos_meta env.videosResp (env.setToList (allIds env)))

/-- Deliveries of one `yt_news.py` run (`main`, 115–156), each delivery
represented by the ordered item list its blocks render: nothing at all is
posted when the deduplicated set is empty (`if not all_ids: return`). -/
def ytNews_run (env : Env) : List (List Meta) :=
  if allIds env = ∅ then [] else [digestItems env]

def minutesItemBullets (desc : List Char) : List (List Char) :=
  if desc.isEmpty then ["（説明なし）".toList]
  else
    match bullets_from_description desc with
    | [] => [(normalize_text desc).take 100 ++ ['…']]
    | bs => bs

/-- The lines rendered for one item by `build_minutes_text`
(`yt_minutes.py` 122–141). -/
def minutesItemLines (env : Env) (idx : Nat) (it : Meta) : List (List Char) :=
  let sn := it.snippet
  let url := "https://www.youtube.com/watch?v=".toList ++ it.id.toList
  let tags := List.intercalate [' ']
    ((make_tags sn.title sn.description).map fun t => '#' :: t.toList)
  ["【議題".toList ++ natChars idx ++ "】".toList ++ sn.title,
   "- 日時：".toList ++ env.jstOf sn.publishedAt ++ " JST".toList,
   "- 発表者：".toList ++ sn.channelTitle,
   "- 概要：".toList]
  ++ (minutesItemBullets sn.description).map (fun b => "   ・".toList ++ b)
  ++ ["- URL：".toList ++ url,
      "- タグ：".toList ++ (if tags.isEmpty then "（なし）".toList else tags),
      "────────────────────────".toList,
      []]

/-- `build_minutes_text` (`yt_minutes.py` 119–142). -/
def build_minutes_text (env : Env) (metas : List Meta) : List Char :=
  List.intercalate ['\n']
    (("📄 AIトレンド社内報（".toList ++ env.nowJstDate ++ "）".toList) :: [] ::
      (metas.enum.flatMap fun p => minutesItemLines env (p.1 + 1) p.2))

/-- Deliveries of one `yt_minutes.py` run (`main`, 149–166): the "no new
items" notice alone on an empty set, otherwise the single digest text. -/
def ytMinutes_run (env : Env) : List (List Char) :=
  if allIds env = ∅ then [minutesNotice env]
  else [build_minutes_text env (digestItems env)]

theorem containsSub_nil_needle (hay : List Char) : containsSub [] hay = true := by
  induction hay with
  | nil => rfl
  | cons c cs ih => rw [containsSub]; simp [beginsWith]

theorem beginsWith_append (m r : List Char) : beginsWith m (m ++ r) = true := by
  induction m with
  | nil => rfl
  | cons c cs ih => simp [beginsWith, ih]

theorem beginsWith_mono (m : List Char) :
    ∀ h c, beginsWith m h = true → beginsWith m (h ++ c) = true := by
  induction m with
  | nil => intro h c _; rfl
  | cons a as ih =>
    intro h c hb
    cases h with
    | nil => cases hb
    | cons d ds =>
      rw [beginsWith, Bool.and_eq_true] at hb
      rw [List.cons_append, beginsWith, Bool.and_eq_true]
      exact ⟨hb.1, ih ds c hb.2⟩

theorem containsSub_mono_right (m : List Char) :
    ∀ h c, containsSub m h = true → containsSub m (h ++ c) = true := by
  intro h
  induction h with
  | nil =>
    intro c hc
    rw [containsSub, List.isEmpty_eq_true] at hc
    rw [hc]
    exact containsSub_nil_needle _
  | cons d ds ih =>
    intro c hc
    rw [containsSub, Bool.or_eq_true] at hc
    rw [List.cons_append, containsSub, Bool.or_eq_true]
    rcases hc with hc | hc
    · left
      have := beginsWith_mono m (d :: ds) c hc
      rwa [List.cons_append] at this
    · right; exact ih c hc

theorem containsSub_mono_left (m : List Char) :
    ∀ a h, containsSub m h = true → containsSub m (a ++ h) = true := by
  intro a
  induction a with
  | nil => intro h hc; exact hc
  | cons d ds ih =>
    intro h hc
    rw [List.cons_append, containsSub, Bool.or_eq_true]
    right
    exact ih h hc

theorem containsSub_self_append (m c : List Char) : containsSub m (m ++ c) = true := by
  cases m with
  | nil => exact containsSub_nil_needle c
  | cons a as =>
    rw [List.cons_append, containsSub, Bool.or_eq_true]
    left
    have := beginsWith_append (a :: as) c
    rwa [List.cons_append] at this

/-- A concrete environment with one configured channel whose metadata
lookup returns no items. -/
def envNoItems : Env where
  channels := fun _ => []
  playlistItems := fun _ => []
  videosResp := fun _ => []
  channelIds := ["UCx"]
  hoursWindow := 24
  cutoff := "2026-01-01T00:00:00Z".toList
  nowJstDate := "2026-01-02".toList
  nowJstMinute := "2026-01-02 09:00".toList
  jstOf := fun s => s
  setToList := fun _ => []

/-- C2 (counterexample): a `yt_news.py` run whose deduplicated set is empty
delivers NOTHING to the webhook — no "no new items" notice is posted
(`if not all_ids: return`), contradicting the claim for that program. -/
theorem c2_counterexample :
    allIds envNoItems = ∅ ∧ ytNews_run envNoItems = [] := by
  constructor <;> rfl

/-- C2 (amended): when the deduplicated set is empty, the minutes program
delivers exactly one "no new items" notice, which carries the configured
window length in hours and the current JST timestamp, and nothing else; the
news program, by contrast, posts nothing at all in that case. -/
theorem c2_empty_run (env : Env) (h : allIds env = ∅) :
    ytMinutes_run env = [minutesNotice env] ∧
    containsSub env.nowJstMinute (minutesNotice env) = true ∧
    containsSub (natChars env.hoursWindow) (minutesNotice env) = true ∧
    ytNews_run env = [] := by
  refine ⟨by rw [ytMinutes_run, if_pos h], ?_, ?_, by rw [ytNews_run, if_pos h]⟩
  · unfold minutesNotice
    simp only [List.append_assoc]
    apply containsSub_mono_left
    exact containsSub_self_append env.nowJstMinute
      (" JST, 過去".toList ++ (natChars env.hoursWindow ++ "h）".toList))
  · unfold minutesNotice
    rw [List.append_assoc]
    apply containsSub_mono_left
    exact containsSub_self_append _ _

/-- Witness for `c2_empty_run`: instantiated at the concrete empty-set
environment. -/
theorem c2_empty_run_witness :
    ytMinutes_run envNoItems = [minutesNotice envNoItems] ∧
    ytNews_run envNoItems = [] :=
  ⟨(c2_empty_run envNoItems rfl).1, (c2_empty_run envNoItems rfl).2.2.2⟩

theorem dedupIds_foldl (inputs : List (List String)) :
    ∀ s : Finset String,
      inputs.foldl (fun s ids => s ∪ ids.toFinset) s = s ∪ inputs.flatten.toFinset := by
  induction inputs with
  | nil => intro s; simp
  | cons l ls ih =>
    intro s
    rw [List.foldl_cons, ih, List.flatten_cons, List.toFinset_append, Finset.union_assoc]

theorem dedupIds_eq_toFinset (inputs : List (List String)) :
    dedupIds inputs = inputs.flatten.toFinset := by
  rw [dedupIds, dedupIds_foldl]
  exact Finset.empty_union _

theorem collectIds_eq_dedupIds (env : Env) (chans : List String) :
    collectIds env chans = dedupIds (sourceLists env chans) := by
  unfold collectIds dedupIds sourceLists
  rw [List.foldl_map]
  congr 1
  funext s ch
  unfold sourceStep
  cases get_uploads_pid env ch with
  | none => simp
  | some upid => rfl

/-- C8: the cross-source deduplication accumulator produces a true set (no
identifier twice), membership holds exactly for identifiers occurring in at
least one input, its size is at most the sum of the input sizes with
equality iff all identifiers across all inputs are pairwise distinct; the
run's accumulation loop computes exactly this accumulator over the
per-source lists. -/
theorem c8_dedup (inputs : List (List String)) :
    (dedupIds inputs).val.Nodup ∧
    (∀ v : String, v ∈ dedupIds inputs ↔ ∃ l ∈ inputs, v ∈ l) ∧
    (dedupIds inputs).card ≤ (inputs.map List.length).sum ∧
    ((dedupIds inputs).card = (inputs.map List.length).sum ↔ inputs.flatten.Nodup) ∧
    (∀ (env : Env) (chans : List String),
      collectIds env chans = dedupIds (sourceLists env chans)) := by
  rw [dedupIds_eq_toFinset]
  have hlen : inputs.flatten.length = (inputs.map List.length).sum :=
    List.length_flatten inputs
  refine ⟨Finset.nodup _, fun v => ?_, ?_, ?_, collectIds_eq_dedupIds⟩
  · rw [List.mem_toFinset, List.mem_flatten]
  · rw [← hlen]
    exact List.toFinset_card_le _
  · rw [← hlen]
    constructor
    · intro hc
      rw [List.card_toFinset] at hc
      have hsub := List.dedup_sublist inputs.flatten
      exact List.dedup_eq_self.mp (hsub.eq_of_length hc)
    · intro hn
      exact List.toFinset_card_of_nodup hn

/-- C9: a configured source whose metadata lookup returns no items is
silently skipped — `get_uploads_pid` returns `None`, the source contributes
no identifiers, and the accumulated set over the remaining sources is
unchanged (the run proceeds with them). -/
theorem c9_soft_skip (env : Env) (pre post : List String) (ch : String)
    (h : env.channels ch = []) :
    get_uploads_pid env ch = none ∧
    collectIds env (pre ++ ch :: post) = collectIds env (pre ++ post) := by
  have hnone : get_uploads_pid env ch = none := by
    unfold get_uploads_pid
    rw [h]
    rfl
  refine ⟨hnone, ?_⟩
  unfold collectIds
  rw [List.foldl_append, List.foldl_append, List.foldl_cons]
  congr 1
  unfold sourceStep
  rw [hnone]

/-- Witness for `c9_soft_skip`: the concrete environment whose only channel
resolves to no items. -/
theorem c9_soft_skip_witness :
    get_uploads_pid envNoItems "UCx" = none ∧
    collectIds envNoItems (["UCx"] : List String) = collectIds envNoItems [] := by
  have := c9_soft_skip envNoItems [] [] "UCx" rfl
  simpa using this
